import Mathlib

/-!
Verification of the 3D point / geometry module (`src/geometry/point.rs`).

Embedding conventions:
* `Point T` embeds the Rust struct `Point<T>` with fields `x`, `y`, `z`.
* The integer scalar instantiations (`i32`, `i64`, `i128`) are embedded with
  unbounded `Int`; the spec explicitly leaves native overflow behaviour out of
  scope, so wraparound is not modelled.
* Values of Rust type `f64` are embedded as rationals (`ℚ`) in two ways.
  Claims that depend only on properties preserved by the `as f64` cast and
  by exact cancellation — order, zero, sign-symmetric rounding — use the
  exact value (`signed_area_of_parallelogram`, `area_of_polygon`).  The
  polygon-area formula claim, whose truth does depend on rounding, uses
  `area_of_polygon_fp`, in which every f64 operation is followed by
  `roundF64`, an explicit binary64 round-to-nearest-even.
* For the comparison claims, `f32` values are embedded by `F32`: a NaN and the
  finite values (the two IEEE zeros are identified, which is exactly how `==`
  and `<` treat them); `==`/`<` on NaN are false, as IEEE prescribes.
* A Rust panic (integer division by zero or the division overflow
  `iN::MIN / -1`, a failed `assert!`, an out-of-bounds index, `%` by zero)
  is embedded as `Option.none`.
-/

/-- Embeds `struct Point<T> { x: T, y: T, z: T }`. -/
structure Point (T : Type) where
  x : T
  y : T
  z : T
deriving DecidableEq

/-- Embeds `Point::default()`: the origin (used only as a `getD` fallback). -/
instance : Inhabited (Point Int) := ⟨⟨0, 0, 0⟩⟩

/-- Embeds `impl Add for Point<T>`: component-wise vector addition. -/
def Point.add {T : Type} [Add T] (p q : Point T) : Point T :=
  ⟨p.x + q.x, p.y + q.y, p.z + q.z⟩

/-- Embeds `impl Sub for Point<T>`: component-wise vector subtraction. -/
def Point.sub {T : Type} [Sub T] (p q : Point T) : Point T :=
  ⟨p.x - q.x, p.y - q.y, p.z - q.z⟩

/-- Embeds `impl Mul<T> for Point<T>`: every coordinate scaled by the scalar. -/
def Point.mulScalar {T : Type} [Mul T] (p : Point T) (k : T) : Point T :=
  ⟨p.x * k, p.y * k, p.z * k⟩

/-- Embeds one Rust integer division `a / b` at bit width `w` (32, 64 or
128): `none` models the two division panics, which are checked in every
build configuration — a zero divisor, and the overflow `iN::MIN / -1`
(whose true quotient `2^(w-1)` is not representable).  Otherwise the
quotient truncated toward zero (`Int.tdiv` is Rust's `/` on signed
integers), which is always representable. -/
def intDivChecked (w : Nat) (a b : Int) : Option Int :=
  if b = 0 then none
  else if a = -(2 ^ (w - 1)) ∧ b = -1 then none
  else some (a.tdiv b)

/-- Embeds `impl Div<T> for Point<T>` at an integer scalar of width `w`:
`Point::new(self.x / rhs, self.y / rhs, self.z / rhs)`, where each `/` may
panic on a zero divisor or on `iN::MIN / -1`. -/
def pointDiv (w : Nat) (p : Point Int) (k : Int) : Option (Point Int) :=
  match intDivChecked w p.x k, intDivChecked w p.y k, intDivChecked w p.z k with
  | some x, some y, some z => some ⟨x, y, z⟩
  | _, _, _ => none

/-- Embeds `impl DivAssign<T> for Point<T>`: `*self = *self / rhs`; the
result is the new value of `self`. -/
def pointDivAssign (w : Nat) (p : Point Int) (k : Int) : Option (Point Int) :=
  pointDiv w p k

/-- Embeds `impl PartialEq for Point<T>`:
`self.x == other.x && self.y == other.y && self.z == other.z`,
generic over the scalar equality `eqT`. -/
def pointEq {T : Type} (eqT : T → T → Bool) (p q : Point T) : Bool :=
  eqT p.x q.x && eqT p.y q.y && eqT p.z q.z

/-- Embeds `PartialOrd::lt` for `Point<T>`: lexicographic on x, then y,
then z, generic over the scalar equality `eqT` and order `ltT`. -/
def pointLt {T : Type} (eqT ltT : T → T → Bool) (p q : Point T) : Bool :=
  if eqT p.x q.x then
    if eqT p.y q.y then ltT p.z q.z
    else ltT p.y q.y
  else ltT p.x q.x

/-- Embeds `PartialOrd::partial_cmp` for `Point<T>`:
equality first, then `lt`, and in the residual branch the internal
consistency check `assert!(!(self < other))` before returning `Greater`.
A failed assertion (a panic) is modelled as `none`. -/
def pointCmp {T : Type} (eqT ltT : T → T → Bool) (p q : Point T) :
    Option Ordering :=
  if pointEq eqT p q then some Ordering.eq
  else if pointLt eqT ltT p q then some Ordering.lt
  else if pointLt eqT ltT p q then none
  else some Ordering.gt

/-- Embeds Rust's derived `>` operator:
`matches!(self.partial_cmp(other), Some(Greater))`. -/
def pointGt {T : Type} (eqT ltT : T → T → Bool) (p q : Point T) : Bool :=
  pointCmp eqT ltT p q == some Ordering.gt

/-- Scalar equality of the integer instantiations (`==` on `iN`). -/
def intEq (a b : Int) : Bool := a == b

/-- Scalar order of the integer instantiations (`<` on `iN`). -/
def intLt (a b : Int) : Bool := decide (a < b)

/-- Model of `f32` for the comparison operators: a NaN plus the finite
values (both IEEE zeros are the single value `fin 0`, matching how `==`
and `<` treat them; infinities are not needed by any claim). -/
inductive F32 where
  | nan : F32
  | fin : ℚ → F32
deriving DecidableEq

/-- IEEE `==` on `f32`: false whenever either side is NaN, numeric
comparison on finite values. -/
def f32Eq : F32 → F32 → Bool
  | F32.fin a, F32.fin b => a == b
  | _, _ => false

/-- IEEE `<` on `f32`: false whenever either side is NaN, numeric
comparison on finite values. -/
def f32Lt : F32 → F32 → Bool
  | F32.fin a, F32.fin b => decide (a < b)
  | _, _ => false

/-- Embeds `fn cross<T>(a: Point<T>, b: Point<T>) -> Point<T>`. -/
def cross {T : Type} [Mul T] [Sub T] (a b : Point T) : Point T :=
  let x0 := a.x
  let y0 := a.y
  let z0 := a.z
  let x1 := b.x
  let y1 := b.y
  let z1 := b.z
  ⟨y0 * z1 - z0 * y1, z0 * x1 - x0 * z1, x0 * y1 - y0 * x1⟩

/-- Embeds `signed_area_of_parallelogram` (macro `area_of_parallelogram_gen`)
at an integer scalar: `(cross(b - a, c - b)).z as f64`.  The `as f64` cast is
embedded as the exact cast into `ℚ`; it preserves order and zero, which is
the only aspect the claims use. -/
def signed_area_of_parallelogram (a b c : Point Int) : ℚ :=
  ((cross (b.sub a) (c.sub b)).z : ℚ)

/-- Embeds `num_traits::signum` on an `f64`: per the num-traits and std
documentation `signum` is `1.0` for positive values, `+0.0` and infinity,
and `-1.0` for negative values, `-0.0` and negative infinity (NaN for NaN).
The argument here is the exact cast of an integer, so it is never NaN and
never `-0.0`: the result is `-1` for negative input and `1` otherwise —
in particular `1` on input `0`. -/
def signumF64 (x : ℚ) : ℚ :=
  if x < 0 then -1 else 1

/-- Embeds `direction` from the `GeometryOperations` trait:
`num_traits::signum(signed_area_of_parallelogram(a, b, c)) as i8`.
The `as i8` cast acts on a value in {-1.0, 1.0} and is embedded as the
exact conversion of that value to `Int`. -/
def direction (a b c : Point Int) : Int :=
  if signumF64 (signed_area_of_parallelogram a b c) < 0 then -1 else 1

/-- Embeds `area_of_triangle` from the `GeometryOperations` trait:
`f64::abs(signed_area_of_parallelogram(a, b, c) * 0.5)`. -/
def area_of_triangle (a b c : Point Int) : ℚ :=
  |signed_area_of_parallelogram a b c * (1 / 2)|

/-- Embeds one evaluation of the loop body of `area_of_polygon`
(macro `area_of_poly_gen`):
`(a[(i + 1) % n].x - a[i].x) * (a[(i + 1) % n].y + a[i].y)`.
`none` models the panics the body could raise: `%` by zero when the list is
empty, and an out-of-bounds index. -/
def polyTerm (a : List (Point Int)) (i : Nat) : Option Int :=
  if a.length = 0 then none
  else
    match a[(i + 1) % a.length]?, a[i]? with
    | some p, some q => some ((p.x - q.x) * (p.y + q.y))
    | _, _ => none

/-- One iteration of the `area_of_polygon` accumulation,
`area -= term as f64`, in exact arithmetic.  Used only for the claims whose
results are invariant under binary64 rounding (zero and cancelling
accumulations, and coordinate-dependence); the rounded model is
`polyStepFP` below. -/
def polyStep (a : List (Point Int)) (acc : ℚ) (i : Nat) : Option ℚ :=
  (polyTerm a i).map (fun t : Int => acc - (t : ℚ))

/-- Embeds `area_of_polygon` (macro `area_of_poly_gen`): starting from
`area = 0.0`, run the loop body for `i in 0..n`, then `area /= 2.0` and
return `area.abs()`.  `none` models a panic in the loop body. -/
def area_of_polygon (a : List (Point Int)) : Option ℚ :=
  ((List.range a.length).foldlM (polyStep a) 0).map (fun area => |area / 2|)

/-- Modelled from the spec (refinement companion for `area_of_polygon`):
the list of loop terms `(x[i+1 mod n] − x[i]) · (y[i+1 mod n] + y[i])` of
the claim's shoelace accumulation, in exact integer arithmetic. -/
def shoelaceTerms (a : List (Point Int)) : List Int :=
  (List.range a.length).map (fun i =>
    ((a.getD ((i + 1) % a.length) default).x - (a.getD i default).x) *
    ((a.getD ((i + 1) % a.length) default).y + (a.getD i default).y))

/-- Modelled from the spec: the shoelace accumulation
`Σ (x[i+1 mod n] − x[i]) · (y[i+1 mod n] + y[i])` over the
implicitly-closed vertex sequence. -/
def shoelaceSum (a : List (Point Int)) : Int :=
  (shoelaceTerms a).sum

/-- Modelled from the spec: absolute value of half the shoelace
accumulation. -/
def shoelaceSpec (a : List (Point Int)) : ℚ :=
  |((shoelaceSum a : Int) : ℚ) / 2|

/-- The unit square of the spec's test property (z = 0). -/
def unitSquare : List (Point Int) :=
  [⟨0, 0, 0⟩, ⟨1, 0, 0⟩, ⟨1, 1, 0⟩, ⟨0, 1, 0⟩]

/-- Rounding of a rational to the nearest integer, ties to even — the
tie-breaking rule of IEEE 754 round-to-nearest. -/
def roundTiesEven (q : ℚ) : Int :=
  if q - ⌊q⌋ < 1 / 2 then ⌊q⌋
  else if 1 / 2 < q - ⌊q⌋ then ⌊q⌋ + 1
  else if ⌊q⌋ % 2 = 0 then ⌊q⌋ else ⌊q⌋ + 1

/-- IEEE 754 binary64 round-to-nearest-even of an exact rational value:
the unit in the last place at `x` is `2 ^ (e - 52)` where
`2 ^ e ≤ |x| < 2 ^ (e + 1)`, and `x` is rounded to the nearest multiple of
it, ties to even.  This is exact binary64 semantics on the normal finite
range (no overflow to infinity, no subnormals); every value reached by the
claims stays far inside that range. -/
def roundF64 (x : ℚ) : ℚ :=
  if x = 0 then 0
  else (roundTiesEven (x / 2 ^ (Int.log 2 |x| - 52)) : ℚ) * 2 ^ (Int.log 2 |x| - 52)

/-- One iteration of the `area_of_polygon` accumulation with binary64
rounding made explicit: `area -= term as f64` rounds the `iN -> f64` cast
of the term and then the f64 subtraction, each to nearest-even. -/
def polyStepFP (a : List (Point Int)) (acc : ℚ) (i : Nat) : Option ℚ :=
  (polyTerm a i).map (fun t : Int => roundF64 (acc - roundF64 (t : ℚ)))

/-- Embeds `area_of_polygon` (macro `area_of_poly_gen`) with binary64
rounding at every floating-point operation: starting from `area = 0.0`,
run the rounded loop body for `i in 0..n`, then the rounded `area /= 2.0`,
and return `area.abs()` (exact).  `none` models a panic in the loop body. -/
def area_of_polygon_fp (a : List (Point Int)) : Option ℚ :=
  ((List.range a.length).foldlM (polyStepFP a) 0).map
    (fun area => |roundF64 (area / 2)|)

/-- The i64 square of side 2^27 + 1 — free of integer overflow, but its one
nonzero shoelace loop term, -2·(2^27 + 1)^2, is not representable in
binary64, so the `as f64` cast rounds. -/
def bigSquare : List (Point Int) :=
  [⟨0, 0, 0⟩, ⟨134217729, 0, 0⟩, ⟨134217729, 134217729, 0⟩, ⟨0, 134217729, 0⟩]

/-- In range, the loop body of `area_of_polygon` evaluates without panicking
to the shoelace term. -/
lemma polyTerm_in_range (a : List (Point Int)) {i : Nat} (h : i < a.length) :
    polyTerm a i = some
      (((a.getD ((i + 1) % a.length) default).x - (a.getD i default).x) *
       ((a.getD ((i + 1) % a.length) default).y + (a.getD i default).y)) := by
  have hn : a.length ≠ 0 := by omega
  have h2 : (i + 1) % a.length < a.length := Nat.mod_lt _ (Nat.pos_of_ne_zero hn)
  unfold polyTerm
  rw [if_neg hn, List.getElem?_eq_getElem h2, List.getElem?_eq_getElem h,
      List.getD_eq_getElem a default h2, List.getD_eq_getElem a default h]

/-- The monadic accumulation of `area_of_polygon` never fails over in-range
indices and equals the pure left fold. -/
lemma foldlM_polyStep (a : List (Point Int)) :
    ∀ l : List Nat, (∀ i ∈ l, i < a.length) → ∀ acc : ℚ,
      List.foldlM (polyStep a) acc l =
        some (List.foldl (fun acc i => acc - (((polyTerm a i).getD 0 : Int) : ℚ)) acc l) := by
  intro l
  induction l with
  | nil => intro _ acc; rfl
  | cons i t ih =>
    intro h acc
    have hi : i < a.length := h i (List.mem_cons_self i t)
    obtain ⟨t0, ht0⟩ : ∃ t0, polyTerm a i = some t0 := ⟨_, polyTerm_in_range a hi⟩
    have hstep : polyStep a acc i = some (acc - (t0 : ℚ)) := by
      simp only [polyStep, ht0, Option.map_some']
    rw [List.foldlM_cons, hstep]
    show List.foldlM (polyStep a) (acc - (t0 : ℚ)) t = _
    rw [ih (fun j hj => h j (List.mem_cons_of_mem _ hj)) (acc - (t0 : ℚ)),
        List.foldl_cons]
    simp [ht0]

/-- Repeated subtraction in a left fold is subtraction of the sum. -/
lemma foldl_sub_eq (g : Nat → ℚ) :
    ∀ (l : List Nat) (acc : ℚ),
      List.foldl (fun acc i => acc - g i) acc l = acc - (l.map g).sum := by
  intro l
  induction l with
  | nil => simp
  | cons i t ih =>
    intro acc
    rw [List.foldl_cons, ih]
    simp
    ring

/-- `area_of_polygon` never panics and computes the spec's shoelace value. -/
lemma area_of_polygon_eq (a : List (Point Int)) :
    area_of_polygon a = some (shoelaceSpec a) := by
  unfold area_of_polygon
  rw [foldlM_polyStep a (List.range a.length) (fun i hi => List.mem_range.mp hi) 0,
      Option.map_some']
  congr 1
  rw [foldl_sub_eq]
  have hS : ((List.range a.length).map (fun i => (((polyTerm a i).getD 0 : Int) : ℚ))).sum
      = ((shoelaceSum a : Int) : ℚ) := by
    unfold shoelaceSum shoelaceTerms
    rw [Int.cast_list_sum, List.map_map]
    apply congrArg List.sum
    apply List.map_congr_left
    intro i hi
    rw [polyTerm_in_range a (List.mem_range.mp hi)]
    simp
  rw [hS]
  unfold shoelaceSpec
  rw [zero_sub, neg_div, abs_neg]

/-- The shoelace value of a single point is zero. -/
lemma shoelaceSpec_singleton (p : Point Int) : shoelaceSpec [p] = 0 := by
  have h : shoelaceSum [p] = 0 := by
    simp [shoelaceSum, shoelaceTerms, List.range_succ]
  simp [shoelaceSpec, h]

/-- The shoelace value of two points is zero: the two terms cancel. -/
lemma shoelaceSpec_pair (p q : Point Int) : shoelaceSpec [p, q] = 0 := by
  have h : shoelaceSum [p, q] = 0 := by
    simp [shoelaceSum, shoelaceTerms, List.range_succ]
    ring
  simp [shoelaceSpec, h]

/-- Coordinate projections of positional lookups agree when the projected
lists agree. -/
lemma getD_coord_congr {l l2 : List (Point Int)} (f : Point Int → Int)
    (h : l.map f = l2.map f) (i : Nat) :
    f (l.getD i default) = f (l2.getD i default) := by
  have hlen : l.length = l2.length := by
    have := congrArg List.length h
    simpa using this
  by_cases hi : i < l.length
  · rw [List.getD_eq_getElem l default hi,
        List.getD_eq_getElem l2 default (show i < l2.length by omega)]
    have h1 : (l.map f)[i]? = (l2.map f)[i]? := by rw [h]
    rw [List.getElem?_map, List.getElem?_map, List.getElem?_eq_getElem hi,
        List.getElem?_eq_getElem (show i < l2.length by omega)] at h1
    simpa using h1
  · rw [List.getD_eq_default l default (by omega),
        List.getD_eq_default l2 default (by omega)]

/-- The shoelace accumulation only reads x- and y-coordinates. -/
lemma shoelaceSum_congr {l l2 : List (Point Int)}
    (hx : l.map Point.x = l2.map Point.x) (hy : l.map Point.y = l2.map Point.y) :
    shoelaceSum l = shoelaceSum l2 := by
  have hlen : l.length = l2.length := by
    have := congrArg List.length hx
    simpa using this
  unfold shoelaceSum shoelaceTerms
  simp only [hlen]
  apply congrArg List.sum
  apply List.map_congr_left
  intro i _
  rw [getD_coord_congr Point.x hx ((i + 1) % l2.length), getD_coord_congr Point.x hx i,
      getD_coord_congr Point.y hy ((i + 1) % l2.length), getD_coord_congr Point.y hy i]

/-- C1 (code-bug evaluation): on the collinear triple (0,0,0), (1,1,0),
(2,2,0) the signed parallelogram area is 0, yet `direction` returns 1 —
`num_traits::signum` on `f64` maps `+0.0` to `1.0` — where the claim and the
spec require 0 for collinear points. -/
theorem direction_collinear_returns_one :
    signed_area_of_parallelogram ⟨0, 0, 0⟩ ⟨1, 1, 0⟩ ⟨2, 2, 0⟩ = 0 ∧
    direction ⟨0, 0, 0⟩ ⟨1, 1, 0⟩ ⟨2, 2, 0⟩ = 1 := by
  constructor
  · norm_num [signed_area_of_parallelogram, cross, Point.sub]
  · norm_num [direction, signumF64, signed_area_of_parallelogram, cross, Point.sub]

/-- C3 counterexample: the claim asserts reflexive equality for every
supported scalar type including `f32`, but a point with a NaN coordinate is
not equal to itself (IEEE `==` on NaN is false). -/
theorem point_eq_not_reflexive_at_nan :
    pointEq f32Eq ⟨F32.nan, F32.fin 0, F32.fin 0⟩ ⟨F32.nan, F32.fin 0, F32.fin 0⟩ = false :=
  rfl

/-- C3 (amended): whenever the scalar equality decides equality and the
scalar order is irreflexive — true of every integer scalar, and of `f32`
values that are not NaN — the 3D comparison is the lexicographic order on
(x, then y, then z), equality is reflexive, and for distinct points exactly
one of `p < q`, `p == q`, `p > q` holds. -/
theorem lex_order_strict_total_amended {T : Type} (eqT ltT : T → T → Bool)
    (heq : ∀ a b : T, eqT a b = true ↔ a = b)
    (hirr : ∀ a : T, ltT a a = false) :
    (∀ p : Point T, pointEq eqT p p = true) ∧
    (∀ p q : Point T, pointLt eqT ltT p q = true ↔
      (ltT p.x q.x = true ∨ p.x = q.x ∧ (ltT p.y q.y = true ∨ p.y = q.y ∧ ltT p.z q.z = true))) ∧
    (∀ p q : Point T, p ≠ q →
      (pointLt eqT ltT p q = true ∧ pointEq eqT p q = false ∧ pointGt eqT ltT p q = false) ∨
      (pointLt eqT ltT p q = false ∧ pointEq eqT p q = true ∧ pointGt eqT ltT p q = false) ∨
      (pointLt eqT ltT p q = false ∧ pointEq eqT p q = false ∧ pointGt eqT ltT p q = true)) := by
  refine ⟨?_, ?_, ?_⟩
  · intro p
    simp [pointEq, (heq p.x p.x).mpr rfl, (heq p.y p.y).mpr rfl, (heq p.z p.z).mpr rfl]
  · intro p q
    unfold pointLt
    by_cases h1 : eqT p.x q.x = true
    · have hx : p.x = q.x := (heq _ _).mp h1
      rw [if_pos h1]
      by_cases h2 : eqT p.y q.y = true
      · have hy : p.y = q.y := (heq _ _).mp h2
        rw [if_pos h2]
        simp [hx, hy, hirr]
      · have hy : p.y ≠ q.y := fun he => h2 ((heq _ _).mpr he)
        rw [if_neg h2]
        simp [hx, hy, hirr]
    · have hx : p.x ≠ q.x := fun he => h1 ((heq _ _).mpr he)
      rw [if_neg h1]
      simp [hx]
  · intro p q hne
    by_cases hEq : pointEq eqT p q = true
    · exfalso
      apply hne
      obtain ⟨px, py, pz⟩ := p
      obtain ⟨qx, qy, qz⟩ := q
      simp only [pointEq, Bool.and_eq_true] at hEq
      obtain ⟨⟨h1, h2⟩, h3⟩ := hEq
      rw [Point.mk.injEq]
      exact ⟨(heq _ _).mp h1, (heq _ _).mp h2, (heq _ _).mp h3⟩
    · have hEq2 : pointEq eqT p q = false := by
        simpa using hEq
      by_cases hLt : pointLt eqT ltT p q = true
      · left
        refine ⟨hLt, hEq2, ?_⟩
        simp only [pointGt, pointCmp, hEq2, hLt]
        decide
      · have hLt2 : pointLt eqT ltT p q = false := by
          simpa using hLt
        right; right
        refine ⟨hLt2, hEq2, ?_⟩
        simp only [pointGt, pointCmp, hEq2, hLt2]
        decide

/-- C3 witness: the amended theorem at the integer scalar, applied to the
concrete distinct points (0,0,0) and (0,0,1): the first is strictly less,
not equal, and not greater. -/
theorem lex_order_strict_total_witness :
    pointLt intEq intLt ⟨0, 0, 0⟩ ⟨0, 0, 1⟩ = true ∧
    pointEq intEq ⟨0, 0, 0⟩ ⟨0, 0, 1⟩ = false ∧
    pointGt intEq intLt ⟨0, 0, 0⟩ ⟨0, 0, 1⟩ = false := by
  have h := (lex_order_strict_total_amended intEq intLt
      (fun a b => beq_iff_eq) (fun a => by simp [intLt])).2.2
      ⟨0, 0, 0⟩ ⟨0, 0, 1⟩ (by decide)
  rcases h with h | h | h
  · exact h
  · exact absurd h.2.1 (by decide)
  · exact absurd h.2.2 (by decide)

/-- C4: `cross` computes the standard 3-vector cross product for every
scalar type, and on the spec's concrete integer points it yields
(2340, 2450, -2540). -/
theorem cross_product_formula :
    (∀ (T : Type) [Mul T] [Sub T] (a b : Point T),
      cross a b = ⟨a.y * b.z - a.z * b.y, a.z * b.x - a.x * b.z, a.x * b.y - a.y * b.x⟩) ∧
    cross (⟨20, 12, 30⟩ : Point Int) ⟨45, -100, -55⟩ = ⟨2340, 2450, -2540⟩ :=
  ⟨fun _ _ _ _ _ => rfl, by decide⟩

/-- C6: on a list of one or two points `area_of_polygon` returns 0 without
signaling any error. -/
theorem degenerate_polygon_zero_area :
    ∀ a : List (Point Int), a.length = 1 ∨ a.length = 2 →
      area_of_polygon a = some 0 := by
  intro a h
  rw [area_of_polygon_eq]
  rcases h with h | h
  · obtain ⟨p, rfl⟩ := List.length_eq_one.mp h
    rw [shoelaceSpec_singleton]
  · obtain ⟨p, q, rfl⟩ := List.length_eq_two.mp h
    rw [shoelaceSpec_pair]

/-- C6 witness: the theorem applied to a concrete two-point list. -/
theorem degenerate_polygon_zero_area_witness :
    area_of_polygon [(⟨5, 7, 9⟩ : Point Int), ⟨1, 2, 3⟩] = some 0 :=
  degenerate_polygon_zero_area _ (Or.inr rfl)

/-- C7: for all integer points, `(a + b) - b == a` exactly. -/
theorem add_sub_round_trip :
    ∀ a b : Point Int, (a.add b).sub b = a := by
  intro a b
  obtain ⟨ax, ay, az⟩ := a
  obtain ⟨bx, by2, bz⟩ := b
  simp [Point.add, Point.sub]

/-- C8: the residual-branch consistency assertion of `partial_cmp` never
fails, for any scalar comparison functions whatsoever: the function always
returns `Some(Equal)`, `Some(Less)` or `Some(Greater)` and never panics. -/
theorem pointCmp_never_panics :
    ∀ (T : Type) (eqT ltT : T → T → Bool) (p q : Point T),
      pointCmp eqT ltT p q = some Ordering.eq ∨
      pointCmp eqT ltT p q = some Ordering.lt ∨
      pointCmp eqT ltT p q = some Ordering.gt := by
  intro T eqT ltT p q
  unfold pointCmp
  rcases Bool.eq_false_or_eq_true (pointEq eqT p q) with h1 | h1 <;>
    rcases Bool.eq_false_or_eq_true (pointLt eqT ltT p q) with h2 | h2 <;>
      simp [h1, h2]

/-- C9: on the empty list `area_of_polygon` returns 0 without panicking:
the accumulation loop never runs, so no indexing and no modulo by zero is
evaluated. -/
theorem empty_polygon_returns_zero :
    area_of_polygon ([] : List (Point Int)) = some 0 := by
  norm_num [area_of_polygon]

/-- C10: the signed parallelogram area, triangle area, direction and polygon
area depend only on the x- and y-coordinates of their inputs: changing only
z-coordinates leaves each result unchanged. -/
theorem geometry_ignores_z :
    (∀ a b c a2 b2 c2 : Point Int,
      a.x = a2.x → a.y = a2.y → b.x = b2.x → b.y = b2.y → c.x = c2.x → c.y = c2.y →
      signed_area_of_parallelogram a b c = signed_area_of_parallelogram a2 b2 c2 ∧
      area_of_triangle a b c = area_of_triangle a2 b2 c2 ∧
      direction a b c = direction a2 b2 c2) ∧
    (∀ l l2 : List (Point Int), l.map Point.x = l2.map Point.x →
      l.map Point.y = l2.map Point.y → area_of_polygon l = area_of_polygon l2) := by
  constructor
  · intro a b c a2 b2 c2 hax hay hbx hby hcx hcy
    have hs : signed_area_of_parallelogram a b c = signed_area_of_parallelogram a2 b2 c2 := by
      simp only [signed_area_of_parallelogram, cross, Point.sub]
      rw [hax, hay, hbx, hby, hcx, hcy]
    refine ⟨hs, ?_, ?_⟩
    · unfold area_of_triangle
      rw [hs]
    · unfold direction
      rw [hs]
  · intro l l2 hx hy
    rw [area_of_polygon_eq, area_of_polygon_eq]
    unfold shoelaceSpec
    rw [shoelaceSum_congr hx hy]

/-- C10 witness: the theorem applied to concrete triples differing only in
their z-coordinates. -/
theorem geometry_ignores_z_witness :
    direction ⟨0, 0, 7⟩ ⟨1, 1, 8⟩ ⟨2, 3, 9⟩ = direction ⟨0, 0, 0⟩ ⟨1, 1, 0⟩ ⟨2, 3, 0⟩ :=
  (geometry_ignores_z.1 _ _ _ _ _ _ rfl rfl rfl rfl rfl rfl).2.2

/-- Characterisation of the binary exponent used by `roundF64`. -/
lemma int_log_two_eq {r : ℚ} {n : ℤ} (hr : 0 < r) (h1 : (2 : ℚ) ^ n ≤ r)
    (h2 : r < (2 : ℚ) ^ (n + 1)) : Int.log 2 r = n := by
  have hb : (1 : ℕ) < 2 := by norm_num
  have ha : n ≤ Int.log 2 r := by
    rw [← Int.zpow_le_iff_le_log hb hr]
    push_cast
    exact h1
  have hb2 : Int.log 2 r < n + 1 := by
    rw [← Int.lt_zpow_iff_log_lt hb hr]
    push_cast
    exact h2
  omega

/-- `roundTiesEven` fixes integers. -/
lemma roundTiesEven_intCast (n : Int) : roundTiesEven (n : ℚ) = n := by
  norm_num [roundTiesEven]

/-- `roundF64` fixes zero. -/
lemma roundF64_zero : roundF64 0 = 0 := by
  simp [roundF64]

/-- Dyadic rationals with mantissa of magnitude at most 2^53 are
binary64-representable: `roundF64` fixes them. -/
lemma roundF64_eq_self (m k : ℤ) (hm : |m| ≤ 2 ^ 53) :
    roundF64 ((m : ℚ) * 2 ^ k) = (m : ℚ) * 2 ^ k := by
  rcases eq_or_ne m 0 with rfl | hm0
  · simp [roundF64]
  have h2 : (0 : ℚ) < 2 := by norm_num
  have h2ne : (2 : ℚ) ≠ 0 := by norm_num
  set x : ℚ := (m : ℚ) * 2 ^ k with hxdef
  have hxne : x ≠ 0 :=
    mul_ne_zero (Int.cast_ne_zero.mpr hm0) (zpow_ne_zero k h2ne)
  have hxabs : |x| = ((|m| : ℤ) : ℚ) * (2 : ℚ) ^ k := by
    rw [hxdef, abs_mul, abs_of_pos (zpow_pos h2 k), Int.cast_abs]
  have hxpos : 0 < |x| := abs_pos.mpr hxne
  set e : ℤ := Int.log 2 |x| with hedef
  have hle : (2 : ℚ) ^ e ≤ |x| := by
    have h := Int.zpow_log_le_self (by norm_num : (1 : ℕ) < 2) hxpos
    rw [← hedef] at h
    simpa using h
  have hub : |x| ≤ (2 : ℚ) ^ (53 : ℤ) * (2 : ℚ) ^ k := by
    rw [hxabs]
    apply mul_le_mul_of_nonneg_right _ (le_of_lt (zpow_pos h2 k))
    calc ((|m| : ℤ) : ℚ) ≤ ((2 ^ 53 : ℤ) : ℚ) := by exact_mod_cast hm
      _ = (2 : ℚ) ^ (53 : ℤ) := by norm_num
  have hek : e ≤ 53 + k := by
    have h1 : (2 : ℚ) ^ e ≤ (2 : ℚ) ^ (53 + k) := by
      apply hle.trans
      rw [zpow_add₀ h2ne]
      exact hub
    exact ((zpow_right_strictMono₀ (by norm_num : (1 : ℚ) < 2)).le_iff_le).mp h1
  have hint : ∃ n : ℤ, (n : ℚ) = x / 2 ^ (e - 52) := by
    rcases le_or_lt e (52 + k) with hcase | hcase
    · refine ⟨m * 2 ^ (52 + k - e).toNat, ?_⟩
      have hnn : (0 : ℤ) ≤ 52 + k - e := by omega
      rw [eq_div_iff (zpow_ne_zero _ h2ne)]
      push_cast
      rw [← zpow_natCast (2 : ℚ) ((52 + k - e).toNat), Int.toNat_of_nonneg hnn,
          mul_assoc, ← zpow_add₀ h2ne,
          show 52 + k - e + (e - 52) = k from by omega, hxdef]
    · have he : e = 53 + k := by omega
      have hstep : (2 : ℚ) ^ (53 + k) ≤ ((|m| : ℤ) : ℚ) * (2 : ℚ) ^ k := by
        rw [← he, ← hxabs]
        exact hle
      have h53 : (2 : ℚ) ^ (53 : ℤ) ≤ ((|m| : ℤ) : ℚ) := by
        rw [zpow_add₀ h2ne] at hstep
        exact le_of_mul_le_mul_right hstep (zpow_pos h2 k)
      have hm53 : |m| = 2 ^ 53 := by
        have hge : ((2 ^ 53 : ℤ) : ℚ) ≤ ((|m| : ℤ) : ℚ) := by
          calc ((2 ^ 53 : ℤ) : ℚ) = (2 : ℚ) ^ (53 : ℤ) := by norm_num
            _ ≤ ((|m| : ℤ) : ℚ) := h53
        have hge2 : (2 ^ 53 : ℤ) ≤ |m| := by exact_mod_cast hge
        omega
      rcases (abs_eq (by positivity : (0 : ℤ) ≤ 2 ^ 53)).mp hm53 with hm' | hm'
      · refine ⟨2 ^ 52, ?_⟩
        rw [eq_div_iff (zpow_ne_zero _ h2ne), hxdef, hm']
        push_cast
        rw [show e - 52 = k + 1 from by omega, zpow_add₀ h2ne, zpow_one]
        ring
      · refine ⟨-(2 ^ 52), ?_⟩
        rw [eq_div_iff (zpow_ne_zero _ h2ne), hxdef, hm']
        push_cast
        rw [show e - 52 = k + 1 from by omega, zpow_add₀ h2ne, zpow_one]
        ring
  obtain ⟨n, hn⟩ := hint
  unfold roundF64
  rw [if_neg hxne, ← hedef, ← hn, roundTiesEven_intCast, hn]
  exact div_mul_cancel₀ x (zpow_ne_zero _ h2ne)

/-- Integers of magnitude at most 2^53 are binary64-representable. -/
lemma roundF64_intCast (m : ℤ) (hm : |m| ≤ 2 ^ 53) : roundF64 (m : ℚ) = m := by
  have h := roundF64_eq_self m 0 hm
  simpa using h

/-- Halves of integers of magnitude at most 2^53 are also
binary64-representable. -/
lemma roundF64_int_half (m : ℤ) (hm : |m| ≤ 2 ^ 53) :
    roundF64 ((m : ℚ) / 2) = (m : ℚ) / 2 := by
  have h := roundF64_eq_self m (-1) hm
  have he : (m : ℚ) * 2 ^ (-1 : ℤ) = (m : ℚ) / 2 := by
    rw [zpow_neg, zpow_one]
    ring
  rw [he] at h
  exact h

/-- The term list has one entry per vertex. -/
lemma shoelaceTerms_length (a : List (Point Int)) :
    (shoelaceTerms a).length = a.length := by
  simp [shoelaceTerms]

/-- In range, the loop body evaluates to the corresponding shoelace term. -/
lemma polyTerm_eq_term (a : List (Point Int)) {j : Nat} (hj : j < a.length) :
    polyTerm a j = some ((shoelaceTerms a).getD j 0) := by
  rw [polyTerm_in_range a hj]
  congr 1
  rw [List.getD_eq_getElem (shoelaceTerms a) 0 (by rw [shoelaceTerms_length]; exact hj)]
  simp [shoelaceTerms]

/-- A left fold step known to succeed peels off the head. -/
lemma foldlM_cons_some {α : Type} (f : ℚ → α → Option ℚ) (acc acc2 : ℚ) (i : α)
    (t : List α) (h : f acc i = some acc2) :
    List.foldlM f acc (i :: t) = List.foldlM f acc2 t := by
  rw [List.foldlM_cons, h]
  rfl

/-- With every term and every partial sum binary64-representable, the
rounded accumulation computes the exact negated shoelace sum. -/
lemma foldlM_polyStepFP (a : List (Point Int))
    (hterm : ∀ t ∈ shoelaceTerms a, |t| ≤ 2 ^ 53)
    (hpart : ∀ k, k ≤ a.length → |((shoelaceTerms a).take k).sum| ≤ 2 ^ 53) :
    ∀ (len j : Nat), j + len = a.length →
      List.foldlM (polyStepFP a) (-((((shoelaceTerms a).take j).sum : Int) : ℚ))
        (List.range' j len) =
      some (-((shoelaceSum a : Int) : ℚ)) := by
  intro len
  induction len with
  | zero =>
    intro j hj
    rw [show List.range' j 0 = [] from rfl, List.foldlM_nil,
        List.take_of_length_le (by rw [shoelaceTerms_length]; omega)]
    rfl
  | succ len ih =>
    intro j hj
    have hjlt : j < a.length := by omega
    have hjlt2 : j < (shoelaceTerms a).length := by
      rw [shoelaceTerms_length]
      exact hjlt
    set t0 : Int := (shoelaceTerms a).getD j 0 with ht0def
    have hterm0 : polyTerm a j = some t0 := polyTerm_eq_term a hjlt
    have ht0mem : t0 ∈ shoelaceTerms a := by
      rw [ht0def, List.getD_eq_getElem (shoelaceTerms a) 0 hjlt2]
      exact List.getElem_mem hjlt2
    have htb : |t0| ≤ 2 ^ 53 := hterm t0 ht0mem
    have hsum : ((shoelaceTerms a).take (j + 1)).sum =
        ((shoelaceTerms a).take j).sum + t0 := by
      rw [List.sum_take_succ _ _ hjlt2, ht0def,
          List.getD_eq_getElem (shoelaceTerms a) 0 hjlt2]
    have hstep : polyStepFP a (-((((shoelaceTerms a).take j).sum : Int) : ℚ)) j =
        some (-((((shoelaceTerms a).take (j + 1)).sum : Int) : ℚ)) := by
      simp only [polyStepFP, hterm0, Option.map_some']
      congr 1
      rw [roundF64_intCast t0 htb]
      have harg : (-((((shoelaceTerms a).take j).sum : Int) : ℚ)) - (t0 : ℚ) =
          ((-(((shoelaceTerms a).take (j + 1)).sum) : ℤ) : ℚ) := by
        rw [hsum]
        push_cast
        ring
      rw [harg, roundF64_intCast (-(((shoelaceTerms a).take (j + 1)).sum))
          (by rw [abs_neg]; exact hpart (j + 1) (by omega))]
      push_cast
      ring
    rw [List.range'_succ, foldlM_cons_some _ _ _ _ _ hstep]
    exact ih (j + 1) (by omega)

/-- When every f64 operation in the loop is exact, the rounded polygon
area coincides with the spec's shoelace value. -/
lemma area_fp_exact (a : List (Point Int))
    (hterm : ∀ t ∈ shoelaceTerms a, |t| ≤ 2 ^ 53)
    (hpart : ∀ k, k ≤ a.length → |((shoelaceTerms a).take k).sum| ≤ 2 ^ 53) :
    area_of_polygon_fp a = some (shoelaceSpec a) := by
  have h0 : (0 : ℚ) = -((((shoelaceTerms a).take 0).sum : Int) : ℚ) := by
    simp
  unfold area_of_polygon_fp
  rw [List.range_eq_range', h0,
      foldlM_polyStepFP a hterm hpart a.length 0 (by omega), Option.map_some']
  congr 1
  have hS : |shoelaceSum a| ≤ 2 ^ 53 := by
    have h := hpart a.length le_rfl
    rw [List.take_of_length_le (le_of_eq (shoelaceTerms_length a))] at h
    exact h
  have harg : (-((shoelaceSum a : Int) : ℚ)) / 2 = ((-(shoelaceSum a) : ℤ) : ℚ) / 2 := by
    push_cast
    ring
  rw [harg, roundF64_int_half (-(shoelaceSum a)) (by rw [abs_neg]; exact hS)]
  unfold shoelaceSpec
  push_cast
  rw [neg_div, abs_neg]

/-- Binary64 rounding of the big square's one nonzero loop term:
-2·(2^27 + 1)^2 lies between multiples of the ulp 2^3 at its binade
(2^55 ≤ |x| < 2^56) and rounds to the nearest one. -/
lemma roundF64_big :
    roundF64 (-36028797555834882 : ℚ) = -36028797555834880 := by
  have hx : (-36028797555834882 : ℚ) ≠ 0 := by norm_num
  have hlog : Int.log 2 |(-36028797555834882 : ℚ)| = 55 := by
    rw [abs_of_nonpos (by norm_num)]
    exact int_log_two_eq (by norm_num) (by norm_num) (by norm_num)
  unfold roundF64
  rw [if_neg hx, hlog, show (55 : ℤ) - 52 = 3 from by norm_num,
      show (2 : ℚ) ^ (3 : ℤ) = 8 from by norm_num]
  have hfloor : ⌊(-36028797555834882 : ℚ) / 8⌋ = -4503599694479361 := by
    rw [Int.floor_eq_iff]
    constructor
    · norm_num
    · norm_num
  have hrte : roundTiesEven ((-36028797555834882 : ℚ) / 8) = -4503599694479360 := by
    unfold roundTiesEven
    rw [hfloor, if_neg (by norm_num), if_pos (by norm_num)]
    norm_num
  rw [hrte]
  norm_num

/-- 2^55 + 2^29 = (2^26 + 1)·2^29 is binary64-representable. -/
lemma roundF64_fix1 :
    roundF64 (36028797555834880 : ℚ) = 36028797555834880 := by
  rw [show (36028797555834880 : ℚ) = ((67108865 : ℤ) : ℚ) * 2 ^ (29 : ℤ) from by norm_num,
      roundF64_eq_self 67108865 29 (by decide)]

/-- 2^54 + 2^28 = (2^26 + 1)·2^28 is binary64-representable. -/
lemma roundF64_fix2 :
    roundF64 (18014398777917440 : ℚ) = 18014398777917440 := by
  rw [show (18014398777917440 : ℚ) = ((67108865 : ℤ) : ℚ) * 2 ^ (28 : ℤ) from by norm_num,
      roundF64_eq_self 67108865 28 (by decide)]

/-- C2 counterexample: on the i64 square of side 2^27 + 1 — free of integer
overflow — the program rounds the `as f64` cast of the one nonzero loop term
and returns 18014398777917440, while the exact absolute half shoelace
accumulation is 18014398777917441; the claim's universal exact equality
fails at this input. -/
theorem big_square_area_rounds :
    area_of_polygon_fp bigSquare ≠ some (shoelaceSpec bigSquare) ∧
    area_of_polygon_fp bigSquare = some 18014398777917440 ∧
    shoelaceSpec bigSquare = 18014398777917441 := by
  have ht0 : polyTerm bigSquare 0 = some 0 := by decide
  have ht1 : polyTerm bigSquare 1 = some 0 := by decide
  have ht2 : polyTerm bigSquare 2 = some (-36028797555834882) := by decide
  have ht3 : polyTerm bigSquare 3 = some 0 := by decide
  have hs0 : polyStepFP bigSquare 0 0 = some 0 := by
    simp only [polyStepFP, ht0, Option.map_some']
    norm_num [roundF64_zero]
  have hs1 : polyStepFP bigSquare 0 1 = some 0 := by
    simp only [polyStepFP, ht1, Option.map_some']
    norm_num [roundF64_zero]
  have hs2 : polyStepFP bigSquare 0 2 = some 36028797555834880 := by
    simp only [polyStepFP, ht2, Option.map_some']
    norm_num [roundF64_big, roundF64_fix1]
  have hs3 : polyStepFP bigSquare 36028797555834880 3 = some 36028797555834880 := by
    simp only [polyStepFP, ht3, Option.map_some']
    norm_num [roundF64_zero, roundF64_fix1]
  have heval : area_of_polygon_fp bigSquare = some 18014398777917440 := by
    unfold area_of_polygon_fp
    rw [show List.range bigSquare.length = [0, 1, 2, 3] from rfl,
        foldlM_cons_some _ _ _ _ _ hs0, foldlM_cons_some _ _ _ _ _ hs1,
        foldlM_cons_some _ _ _ _ _ hs2, foldlM_cons_some _ _ _ _ _ hs3,
        List.foldlM_nil]
    show some |roundF64 ((36028797555834880 : ℚ) / 2)| = _
    norm_num [roundF64_fix2]
  have hspec : shoelaceSpec bigSquare = 18014398777917441 := by
    have h : shoelaceSum bigSquare = -36028797555834882 := by decide
    norm_num [shoelaceSpec, h]
  refine ⟨?_, heval, hspec⟩
  intro hcontra
  rw [heval, hspec] at hcontra
  exact absurd (Option.some.inj hcontra) (by norm_num)

/-- C2 (amended): `area_of_polygon` evaluates the shoelace accumulation in
binary64; whenever every loop term and every partial accumulation is
binary64-representable (magnitude at most 2^53), every rounding is exact
and the result is exactly the absolute value of half the shoelace
accumulation over the implicitly-closed vertex sequence; in particular on
the unit square with z = 0 it returns exactly 1. -/
theorem area_of_polygon_shoelace_amended :
    (∀ a : List (Point Int), a ≠ [] →
      (∀ t ∈ shoelaceTerms a, |t| ≤ 2 ^ 53) →
      (∀ k, k ≤ a.length → |((shoelaceTerms a).take k).sum| ≤ 2 ^ 53) →
      area_of_polygon_fp a = some (shoelaceSpec a)) ∧
    area_of_polygon_fp unitSquare = some 1 := by
  constructor
  · intro a _ hterm hpart
    exact area_fp_exact a hterm hpart
  · have ht : ∀ t ∈ shoelaceTerms unitSquare, |t| ≤ 2 ^ 53 := by decide
    have hp : ∀ k, k ≤ unitSquare.length →
        |((shoelaceTerms unitSquare).take k).sum| ≤ 2 ^ 53 := by
      intro k hk
      have hk4 : k ≤ 4 := hk
      interval_cases k <;> decide
    rw [area_fp_exact unitSquare ht hp]
    have h : shoelaceSum unitSquare = -2 := by decide
    norm_num [shoelaceSpec, h]

/-- C2 witness: the amended statement applied to a concrete one-point list. -/
theorem area_of_polygon_shoelace_amended_witness :
    area_of_polygon_fp [(⟨0, 0, 0⟩ : Point Int)] = some (shoelaceSpec [⟨0, 0, 0⟩]) := by
  apply area_of_polygon_shoelace_amended.1 [⟨0, 0, 0⟩] (by decide) (by decide)
  intro k hk
  have hk1 : k ≤ 1 := hk
  interval_cases k <;> decide

/-- C5 counterexample: the divisor -1 is nonzero, yet dividing the i64
point (i64::MIN, 0, 0) by it traps — Rust checks the division overflow
`i64::MIN / -1` in every build configuration, so the division does not
succeed totally for every nonzero divisor. -/
theorem point_div_min_by_neg_one_traps :
    (-1 : Int) ≠ 0 ∧ pointDiv 64 ⟨-(2 ^ 63), 0, 0⟩ (-1) = none := by
  decide

/-- C5 (amended): dividing by the scalar zero (via `/` or `/=`) traps;
dividing by -1 also traps when any component is the minimal value
`iN::MIN` (division overflow, checked in every build mode); for every
other nonzero divisor the division succeeds totally, returning the
component-wise quotient truncated toward zero. -/
theorem point_div_traps_amended :
    ∀ (w : Nat) (p : Point Int) (k : Int),
      (k = 0 → pointDiv w p k = none ∧ pointDivAssign w p k = none) ∧
      (k ≠ 0 →
        ¬(k = -1 ∧ (p.x = -(2 ^ (w - 1)) ∨ p.y = -(2 ^ (w - 1)) ∨ p.z = -(2 ^ (w - 1)))) →
        pointDiv w p k = some ⟨p.x.tdiv k, p.y.tdiv k, p.z.tdiv k⟩ ∧
        pointDivAssign w p k = some ⟨p.x.tdiv k, p.y.tdiv k, p.z.tdiv k⟩) ∧
      (k = -1 → (p.x = -(2 ^ (w - 1)) ∨ p.y = -(2 ^ (w - 1)) ∨ p.z = -(2 ^ (w - 1))) →
        pointDiv w p k = none ∧ pointDivAssign w p k = none) := by
  intro w p k
  refine ⟨?_, ?_, ?_⟩
  · intro hk
    subst hk
    constructor <;> simp [pointDiv, pointDivAssign, intDivChecked]
  · intro hk hno
    have hx : intDivChecked w p.x k = some (p.x.tdiv k) := by
      unfold intDivChecked
      rw [if_neg hk, if_neg (fun hc => hno ⟨hc.2, Or.inl hc.1⟩)]
    have hy : intDivChecked w p.y k = some (p.y.tdiv k) := by
      unfold intDivChecked
      rw [if_neg hk, if_neg (fun hc => hno ⟨hc.2, Or.inr (Or.inl hc.1)⟩)]
    have hz : intDivChecked w p.z k = some (p.z.tdiv k) := by
      unfold intDivChecked
      rw [if_neg hk, if_neg (fun hc => hno ⟨hc.2, Or.inr (Or.inr hc.1)⟩)]
    constructor <;> simp [pointDiv, pointDivAssign, hx, hy, hz]
  · intro hk hmin
    subst hk
    have hnone : intDivChecked w p.x (-1) = none ∨ intDivChecked w p.y (-1) = none ∨
        intDivChecked w p.z (-1) = none := by
      rcases hmin with h | h | h
      · exact Or.inl (by simp [intDivChecked, h])
      · exact Or.inr (Or.inl (by simp [intDivChecked, h]))
      · exact Or.inr (Or.inr (by simp [intDivChecked, h]))
    have hp : pointDiv w p (-1) = none := by
      unfold pointDiv
      rcases hnone with h | h | h <;>
        cases h1 : intDivChecked w p.x (-1) <;>
          cases h2 : intDivChecked w p.y (-1) <;>
            cases h3 : intDivChecked w p.z (-1) <;>
              simp_all
    exact ⟨hp, hp⟩

/-- C5 witness: the amended theorem at width 64, the point (7,-7,5), and
the divisors 2 and 0. -/
theorem point_div_traps_amended_witness :
    pointDiv 64 ⟨7, -7, 5⟩ 2 = some ⟨3, -3, 2⟩ ∧ pointDiv 64 ⟨7, -7, 5⟩ 0 = none := by
  constructor
  · have h := (((point_div_traps_amended 64 ⟨7, -7, 5⟩ 2).2.1) (by decide) (by decide)).1
    exact h.trans (by decide)
  · exact ((point_div_traps_amended 64 ⟨7, -7, 5⟩ 0).1 rfl).1
